import Mathlib

/-!
Shallow embedding of `mmdet/models/anchor_heads/fouriernet_head.py` (FourierNet head)
and proofs about its target assignment, polar contour sampling, Fourier codec,
centerness scoring, point grid and decoding routines.

Conventions of the embedding:
* float tensors carrying exact arithmetic (coordinates, areas, distances) are
  modelled with `ℚ`; quantities produced by `sqrt`/`sin`/`cos`/`exp` live in `ℝ`/`ℂ`;
* the trigonometric front-end of `get_polar_coordinates` (the `atan2`/`sqrt` lines
  58-64 that turn contour pixels into integer angles and distances) is a float
  boundary: the embedding of the binning logic takes the resulting integer angles
  and rational distances as input;
* Python functions that can raise are embedded with `Option`/`Except`.
-/

namespace FourierNet

/-- The `INF = 1e8` sentinel of `fouriernet_head.py` line 15. -/
def INF : ℚ := 100000000

/-! ### PointGrid: `get_points_single`, lines 111-120

`x_range = arange(0, w*stride, stride)`, `y_range = arange(0, h*stride, stride)`,
`y, x = meshgrid(y_range, x_range)` and row-major flattening followed by
`+ stride // 2` (Python/torch integer floor division on the integer stride).
Row `i`, column `j` of the mesh therefore yields the point
`(j*stride + stride/2, i*stride + stride/2)` with the flooring division. -/

/-- Embedding of `get_points_single` (lines 111-120); the row-major flattening of
the meshgrid is the `flatMap` over rows. -/
def get_points_single (featmap_size : ℕ × ℕ) (stride : ℕ) : List (ℚ × ℚ) :=
  (List.range featmap_size.1).flatMap (fun i =>
    (List.range featmap_size.2).map (fun j =>
      (((j * stride + stride / 2 : ℕ) : ℚ), ((i * stride + stride / 2 : ℕ) : ℚ))))

/-! ### PolarSampler: `get_polar_coordinates`, lines 52-100

Lines 57-62 compute, per contour point, an integer angle (via the inverted
`atan2(x, y)` convention, shifted into `[0, 360)` and truncated by `.int()`)
and a rational distance.  The embedding starts from these `(angle, distance)`
pairs.  Lines 63-64 sort angles and apply the obtained permutation to the
distances, i.e. they jointly sort the pairs by angle (a stable sort is used
here; the sort order between equal angles is irrelevant to every later step,
which only takes maxima over the set of pairs with a fixed angle). -/

/-- Python's `tensor.max()` on a (nonempty) 1-d tensor: `none` on the empty list. -/
def listMax? : List ℚ → Option ℚ
  | [] => none
  | x :: xs => some (xs.foldl max x)

/-- Lines 63-64: `angle, idx = torch.sort(angle); dist = dist[idx]`, the joint
sort of the `(angle, dist)` pairs by angle. -/
def sortByAngle (pairs : List (ℤ × ℚ)) : List (ℤ × ℚ) :=
  List.insertionSort (fun p q => p.1 ≤ q.1) pairs

/-- Lines 70 etc.: `dist[angle == i].max()`, the maximum distance among the pairs
whose angle equals `a` (`none` when no pair matches). -/
def maxDistAt (pairs : List (ℤ × ℚ)) (a : ℤ) : Option ℚ :=
  listMax? ((pairs.filter (fun pr => pr.1 = a)).map Prod.snd)

/-- Lines 68-89: the `if i in angle: ... elif i + 1 in angle: ...` chain that
fills `new_coordinate[i]`; `none` models the key being absent. -/
def newCoordinate (pairs : List (ℤ × ℚ)) (i : ℤ) : Option ℚ :=
  if i ∈ pairs.map Prod.fst then maxDistAt pairs i
  else if i + 1 ∈ pairs.map Prod.fst then maxDistAt pairs (i + 1)
  else if i - 1 ∈ pairs.map Prod.fst then maxDistAt pairs (i - 1)
  else if i + 2 ∈ pairs.map Prod.fst then maxDistAt pairs (i + 2)
  else if i - 2 ∈ pairs.map Prod.fst then maxDistAt pairs (i - 2)
  else if i + 3 ∈ pairs.map Prod.fst then maxDistAt pairs (i + 3)
  else if i - 3 ∈ pairs.map Prod.fst then maxDistAt pairs (i - 3)
  else none

/-- The epsilon written into unmatched bins at lines 97-98 (`1e-6`). -/
def polarEps : ℚ := 1 / 1000000

/-- Embedding of `get_polar_coordinates` (lines 52-100) from the point where the
integer angles and rational distances of the contour points are available
(`angles`/`dists` are the parallel tensors of lines 61-62).  Returns the
`distances` output tensor.  For the bin loops `for i in range(0, 360, interval)`
with `interval = 360 // n` to enumerate exactly the `n` bins `k * interval`
(and for the write `distances[a // interval]` to stay in bounds), `n` must
divide `360`; the theorems assume `n * (360 / n) = 360`. -/
def get_polar_coordinates (angles : List ℤ) (dists : List ℚ) (n : ℕ) : List ℚ :=
  let pairs := sortByAngle (angles.zip dists)
  let interval : ℕ := 360 / n
  (List.range n).map (fun k =>
    match newCoordinate pairs ((k * interval : ℕ) : ℤ) with
    | some d => d
    | none => polarEps)

/-- The claim's description of one bin: the priority order of candidate angles
around a bin angle `i` is exact, `+1`, `-1`, `+2`, `-2`, `+3`, `-3`. -/
def priorityAngles (i : ℤ) : List ℤ :=
  [i, i + 1, i - 1, i + 2, i - 2, i + 3, i - 3]

/-- The claim's description of the value of the bin at angle `i`: the maximum
distance among the contour points whose angle equals the first angle of
`priorityAngles i` matched by any contour point, and `1e-6` when none is. -/
def specBinValue (pairs : List (ℤ × ℚ)) (i : ℤ) : ℚ :=
  match (priorityAngles i).find? (fun a => decide (a ∈ pairs.map Prod.fst)) with
  | some a => (maxDistAt pairs a).getD polarEps
  | none => polarEps

/-! ### CenternessScorer: `polar_centerness_target`, lines 103-108 -/

/-- Python's `tensor.min()` over a nonempty 1-d tensor of reals. -/
noncomputable def listMinR : List ℝ → ℝ
  | [] => 0
  | x :: xs => xs.foldl min x

/-- Python's `tensor.max()` over a nonempty 1-d tensor of reals. -/
noncomputable def listMaxR : List ℝ → ℝ
  | [] => 0
  | x :: xs => xs.foldl max x

/-- Embedding of `polar_centerness_target` (lines 103-108):
`sqrt(min/max)`, divided by `max_centerness` when that argument is truthy
(`if max_centerness:` - a supplied value of `0.0` is falsy and skips the
division), then `clamp_max(1.0)`. -/
noncomputable def polar_centerness_target
    (pos_mask_targets : List ℝ) (max_centerness : Option ℝ) : ℝ :=
  let c := Real.sqrt (listMinR pos_mask_targets / listMaxR pos_mask_targets)
  let c := match max_centerness with
    | some m => if m ≠ 0 then c / m else c
    | none => c
  min c 1

/-! ### FourierCodec: the `torch.rfft(_, 1, True, False)` / `torch.irfft(_, 1, True, False)`
calls at lines 442-443 (forward, truncation to `num_coe` bins) and lines
385-387 / 777-786 (zero-padding back to `contour_points` bins, inverse).

Both calls pass `normalized=True` and `onesided=False`: the forward transform
returns the full two-sided `N`-bin complex spectrum scaled by `1/sqrt(N)`, and
the inverse transform performs the full normalized complex inverse transform of
its `N` complex input bins and keeps the real component. -/

/-- The spectrum twiddle factor `e^(2*pi*i*m/N)`. -/
noncomputable def cexpBin (N : ℕ) (m : ℤ) : ℂ :=
  Complex.exp (2 * Real.pi * Complex.I * m / N)

/-- Bin `k` of `torch.rfft(s, 1, True, False)` for a real input of length `N`:
the full (two-sided) DFT with orthonormal `1/sqrt(N)` scaling. -/
noncomputable def rfftNorm (N : ℕ) (s : ℕ → ℝ) (k : ℕ) : ℂ :=
  ((Real.sqrt N : ℝ) : ℂ)⁻¹ *
    ∑ j ∈ Finset.range N, (s j : ℂ) * cexpBin N (-((j : ℤ) * k))

/-- The truncation `[..., :num_coe, :]` of line 443 followed by the zero padding
`torch.cat([_, torch.zeros(.., contour_points - num_coe, 2)], 1)` of lines
385-386/778: the first `K` bins are kept, the rest are zero. -/
def truncCoe (K : ℕ) (c : ℕ → ℂ) (k : ℕ) : ℂ := if k < K then c k else 0

/-- Output sample `j` of `torch.irfft(c, 1, True, False)` on `N` complex input
bins: the real component of the full normalized complex inverse transform. -/
noncomputable def irfftNorm (N : ℕ) (c : ℕ → ℂ) (j : ℕ) : ℝ :=
  (((Real.sqrt N : ℝ) : ℂ)⁻¹ *
    ∑ k ∈ Finset.range N, c k * cexpBin N ((j : ℤ) * k)).re

/-- The forward-truncate-pad-inverse round trip of the codec with `K` retained
coefficient bins out of `N`. -/
noncomputable def fourierRoundTrip (N K : ℕ) (s : ℕ → ℝ) (j : ℕ) : ℝ :=
  irfftNorm N (truncCoe K (rfftNorm N s)) j

/-! ### TargetAssigner: `polar_target_single`, lines 541-625 -/

/-- An axis-aligned ground-truth box `(x0, y0, x1, y1)`. -/
structure Box where
  x0 : ℚ
  y0 : ℚ
  x1 : ℚ
  y1 : ℚ
deriving DecidableEq

/-- Lines 566-570: the `(left, top, right, bottom)` distances from a point to the
four edges of a box. -/
def ltrb (p : ℚ × ℚ) (b : Box) : ℚ × ℚ × ℚ × ℚ :=
  (p.1 - b.x0, p.2 - b.y0, b.x1 - p.1, b.y1 - p.2)

/-- `bbox_targets.min(-1)[0]` over the 4 stacked distances. -/
def min4 (t : ℚ × ℚ × ℚ × ℚ) : ℚ := min t.1 (min t.2.1 (min t.2.2.1 t.2.2.2))

/-- `bbox_targets.max(-1)[0]` over the 4 stacked distances (line 595). -/
def max4 (t : ℚ × ℚ × ℚ × ℚ) : ℚ := max t.1 (max t.2.1 (max t.2.2.1 t.2.2.2))

/-- Lines 553-554: `(x1 - x0 + 1) * (y1 - y0 + 1)`. -/
def boxArea (b : Box) : ℚ := (b.x1 - b.x0 + 1) * (b.y1 - b.y0 + 1)

/-- Line 591 (`center_sample` disabled): a point is inside a box iff all four
edge distances are strictly positive. -/
def insideGtBbox (p : ℚ × ℚ) (b : Box) : Bool :=
  decide (0 < min4 (ltrb p b))

/-- Lines 595-599: the max edge distance must lie inside the closed regression
range of the point's level. -/
def insideRegressRange (rr : ℚ × ℚ) (p : ℚ × ℚ) (b : Box) : Bool :=
  decide (rr.1 ≤ max4 (ltrb p b) ∧ max4 (ltrb p b) ≤ rr.2)

/-- The conjunction of the two tests of lines 601-602 (a box passing neither
masking keeps its area; failing either sets it to `INF`). -/
def passesBoth (p rr : ℚ × ℚ) (b : Box) : Bool :=
  insideGtBbox p b && insideRegressRange rr p b

/-- Lines 601-602: the per-point row of `areas` after the two maskings. -/
def effectiveAreas (gtBoxes : List Box) (p rr : ℚ × ℚ) : List ℚ :=
  gtBoxes.map (fun b => if passesBoth p rr b then boxArea b else INF)

/-- Row minimum, seeded like `tensor.min(dim=1)` on a nonempty row (an empty
ground-truth list never reaches this point: line 548 returns earlier). -/
def listMinQ : List ℚ → ℚ
  | [] => INF
  | x :: xs => xs.foldl min x

/-- Line 603: `areas.min(dim=1)` also returns the index of the first minimal
entry of the row (torch returns the first index at ties). -/
def firstMinIdx (l : List ℚ) : ℕ := l.findIdx (fun x => decide (x = listMinQ l))

/-- The default box used by out-of-range `getD` reads (never hit in bounds). -/
def dBox : Box := ⟨0, 0, 0, 0⟩

/-- Lines 603-607 for one point: the label of the first instance of minimal
masked area, replaced by the background label `0` when that minimum is `INF`. -/
def labelAt (gtBoxes : List Box) (gtLabels : List ℤ) (p rr : ℚ × ℚ) : ℤ :=
  let eff := effectiveAreas gtBoxes p rr
  if listMinQ eff = INF then 0 else gtLabels.getD (firstMinIdx eff) 0

/-- Line 608: the bbox regression target keeps the distances to the argmin box
(also for background points). -/
def bboxTargetAt (gtBoxes : List Box) (p rr : ℚ × ℚ) : ℚ × ℚ × ℚ × ℚ :=
  ltrb p (gtBoxes.getD (firstMinIdx (effectiveAreas gtBoxes p rr)) dBox)

/-- The labels row of `polar_target_single` (lines 601-607) over all points. -/
def polarLabels (gtBoxes : List Box) (gtLabels : List ℤ)
    (points rrs : List (ℚ × ℚ)) : List ℤ :=
  (points.zip rrs).map (fun pr => labelAt gtBoxes gtLabels pr.1 pr.2)

/-- Embedding of `polar_target_single` (lines 541-625) with `center_sample`
disabled.  `getPolarDists x y i` stands for
`get_polar_coordinates(x, y, gt_masks[i], contour_points)` (a float boundary:
the contour pixels pass through `atan2`).  The code's early return at lines
548-550 hands back only the labels and the bbox targets - it produces no mask
and no centerness tensor - which the embedding renders as `none` in the last
two components; the regular path (lines 552-625) returns all four (`some`). -/
noncomputable def polar_target_single
    (contour_points : ℕ) (getPolarDists : ℚ → ℚ → ℕ → List ℚ)
    (normalized_centerness : Bool) (gt_max_centerness : ℕ → ℝ)
    (gtBoxes : List Box) (gtLabels : List ℤ)
    (points rrs : List (ℚ × ℚ)) :
    List ℤ × List (ℚ × ℚ × ℚ × ℚ) × Option (List (List ℚ)) × Option (List ℝ) :=
  if gtLabels.length = 0 then
    (List.replicate points.length 0, List.replicate points.length (0, 0, 0, 0),
      none, none)
  else
    (polarLabels gtBoxes gtLabels points rrs,
     (points.zip rrs).map (fun pr => bboxTargetAt gtBoxes pr.1 pr.2),
     some ((points.zip rrs).map (fun pr =>
       if labelAt gtBoxes gtLabels pr.1 pr.2 ≠ 0 then
         getPolarDists pr.1.1 pr.1.2 (firstMinIdx (effectiveAreas gtBoxes pr.1 pr.2))
       else List.replicate contour_points 0)),
     some ((points.zip rrs).map (fun pr =>
       if labelAt gtBoxes gtLabels pr.1 pr.2 ≠ 0 then
         polar_centerness_target
           ((getPolarDists pr.1.1 pr.1.2
               (firstMinIdx (effectiveAreas gtBoxes pr.1 pr.2))).map (fun q => (q : ℝ)))
           (if normalized_centerness then
              some (gt_max_centerness (firstMinIdx (effectiveAreas gtBoxes pr.1 pr.2)))
            else none)
       else 0)))

/-! ### Decoder: `distance2mask`, lines 763-809 (non-Fourier path) -/

/-- Line 788: `torch.range(0, 359, interval) / 180 * pi`.  `torch.range` includes
its endpoint, so for `interval = 360 // N` with `N` dividing `360` the table
holds exactly the `N` angles `i * interval` in degrees, converted to radians. -/
noncomputable def angleTable (N : ℕ) (i : ℕ) : ℝ :=
  ((i * (360 / N) : ℕ) : ℝ) * Real.pi / 180

/-- Embedding of `distance2mask` (lines 788-809) for a single sample point:
vertex `i` is `(d_i * sin(angle_i) + px, d_i * cos(angle_i) + py)`, clamped
into `[0, W-1] x [0, H-1]` when an image shape `(H, W)` is supplied (line
801-803) and then into a bounding box when one is supplied (lines 804-806). -/
noncomputable def distance2mask (N : ℕ) (p : ℝ × ℝ) (distances : ℕ → ℝ)
    (max_shape : Option (ℝ × ℝ)) (bbox : Option (ℝ × ℝ × ℝ × ℝ)) :
    ℕ → ℝ × ℝ :=
  fun i =>
    let x := distances i * Real.sin (angleTable N i) + p.1
    let y := distances i * Real.cos (angleTable N i) + p.2
    let x := match max_shape with
      | some hw => min (max x 0) (hw.2 - 1)
      | none => x
    let y := match max_shape with
      | some hw => min (max y 0) (hw.1 - 1)
      | none => y
    let x := match bbox with
      | some b => max (min x b.2.2.1) b.1
      | none => x
    let y := match bbox with
      | some b => max (min y b.2.2.2) b.2.1
      | none => y
    (x, y)

/-! ### Inference decode: the tail of `get_bboxes_single`, lines 718-760

After the per-level loop concatenates `mlvl_bboxes` and `mlvl_masks`, the
variables `_mlvl_bboxes` and `_mlvl_masks` are assigned only inside the
`if rescale:` block (lines 720-727), yet both NMS call sites (lines 736-758)
read them unconditionally; with a falsy `rescale` Python raises a NameError
at that read.  `Except` models that failure; the NMS collaborator is opaque
(an arbitrary function argument), as is the mask-to-min-bbox reduction of
lines 736-739. -/
def get_bboxes_single_tail {β : Type} (rescale mask_nms : Bool)
    (mlvl_bboxes mlvl_masks : List ℚ) (scale_factor : ℚ)
    (mask_min_bbox : List ℚ → List ℚ)
    (nms : List ℚ → List ℚ → β) : Except String β :=
  let scaled_bboxes : Option (List ℚ) :=
    if rescale then some (mlvl_bboxes.map (fun v => v / scale_factor)) else none
  let scaled_masks : Option (List ℚ) :=
    if rescale then some (mlvl_masks.map (fun v => v / scale_factor)) else none
  if mask_nms then
    match scaled_masks with
    | none => Except.error "NameError"
    | some m => Except.ok (nms (mask_min_bbox m) m)
  else
    match scaled_bboxes, scaled_masks with
    | some b, some m => Except.ok (nms b m)
    | _, _ => Except.error "NameError"

/-! ## Theorems -/

/-! ### C10: PointGrid -/

theorem length_get_points_single (h w s : ℕ) :
    (get_points_single (h, w) s).length = h * w := by
  simp only [get_points_single, List.length_flatMap]
  simp [Function.comp_def, List.map_const', List.sum_replicate, Nat.smul_one_eq_cast]

theorem flatMap_range_getElem {α : Type} (f : ℕ → List α) (w : ℕ)
    (hf : ∀ k, (f k).length = w) :
    ∀ (h i j : ℕ), i < h → j < w →
      ((List.range h).flatMap f)[i * w + j]? = (f i)[j]? := by
  intro h
  induction h with
  | zero => intro i j hi _; exact absurd hi (Nat.not_lt_zero i)
  | succ n ih =>
    intro i j hi hj
    rw [List.range_succ, List.flatMap_append]
    have hlen : ((List.range n).flatMap f).length = n * w := by
      simp [List.length_flatMap, Function.comp_def, hf, List.map_const',
        List.sum_replicate]
    by_cases hin : i < n
    · have hidx : i * w + j < n * w := by
        have h1 : i * w + j < (i + 1) * w := by
          have := Nat.add_lt_add_left hj (i * w)
          simpa [Nat.succ_mul] using this
        exact lt_of_lt_of_le h1 (Nat.mul_le_mul_right w hin)
      rw [List.getElem?_append, if_pos (by rw [hlen]; exact hidx)]
      exact ih i j hin hj
    · have hieq : i = n := by omega
      subst hieq
      rw [List.getElem?_append_right (by rw [hlen]; exact Nat.le_add_right _ _)]
      simp [hlen]

/-- C10: the PointGrid produces exactly `h*w` points in row-major order, with the
point for row `i`, column `j` equal to `(j*s + s/2, i*s + s/2)` - amended: the
code adds `stride // 2`, the floor of `s/2` (identical to `s/2` for the even
configured strides, smaller by `1/2` for odd `s`). -/
theorem points_single_spec (h w s i j : ℕ) (hi : i < h) (hj : j < w) :
    (get_points_single (h, w) s).length = h * w ∧
    (get_points_single (h, w) s)[i * w + j]? =
      some (((j * s + s / 2 : ℕ) : ℚ), ((i * s + s / 2 : ℕ) : ℚ)) := by
  refine ⟨length_get_points_single h w s, ?_⟩
  simp only [get_points_single]
  rw [flatMap_range_getElem _ w (fun k => by simp) h i j hi hj]
  simp [List.getElem?_range hj]

/-- C10 witness: the grid for a `(2, 3)` feature map at stride `4`. -/
theorem points_single_spec_witness :
    (get_points_single (2, 3) 4).length = 2 * 3 ∧
    (get_points_single (2, 3) 4)[1 * 3 + 2]? =
      some (((2 * 4 + 4 / 2 : ℕ) : ℚ), ((1 * 4 + 4 / 2 : ℕ) : ℚ)) :=
  points_single_spec 2 3 4 1 2 (by decide) (by decide)

/-- C10 counterexample: at the odd stride `3` the single point of a `(1, 1)`
feature map is `(1, 1)` (the code adds `3 // 2 = 1`), not the
`(0*3 + 3/2, 0*3 + 3/2) = (3/2, 3/2)` the claim's exact `s/2` demands. -/
theorem points_single_odd_stride :
    get_points_single (1, 1) 3 = [(1, 1)] ∧
    ((1 : ℚ), (1 : ℚ)) ≠ ((0 * 3 + 3 / 2 : ℚ), (0 * 3 + 3 / 2 : ℚ)) := by
  constructor
  · norm_num [get_points_single, show List.range 1 = [0] from rfl, Prod.ext_iff]
  · norm_num [Prod.ext_iff]

/-! ### C8: `get_bboxes_single` and the `rescale` flag -/

/-- C8: the tail of `get_bboxes_single` returns a detection result exactly when
`rescale` is truthy; with a falsy `rescale` both NMS call sites read the
unassigned `_mlvl_bboxes`/`_mlvl_masks` locals and the call raises, for every
input. -/
theorem get_bboxes_single_requires_rescale {β : Type} (rescale mask_nms : Bool)
    (mlvl_bboxes mlvl_masks : List ℚ) (scale_factor : ℚ)
    (mask_min_bbox : List ℚ → List ℚ) (nms : List ℚ → List ℚ → β) :
    (∃ v, get_bboxes_single_tail rescale mask_nms mlvl_bboxes mlvl_masks
        scale_factor mask_min_bbox nms = Except.ok v) ↔ rescale = true := by
  cases rescale <;> cases mask_nms <;> simp [get_bboxes_single_tail]

/-! ### C9: CenternessScorer -/

theorem foldl_min_replicate (x : ℝ) : ∀ n : ℕ, (List.replicate n x).foldl min x = x
  | 0 => rfl
  | n + 1 => by
    rw [List.replicate_succ, List.foldl_cons, min_self]
    exact foldl_min_replicate x n

theorem foldl_max_replicate (x : ℝ) : ∀ n : ℕ, (List.replicate n x).foldl max x = x
  | 0 => rfl
  | n + 1 => by
    rw [List.replicate_succ, List.foldl_cons, max_self]
    exact foldl_max_replicate x n

theorem listMinR_replicate (x : ℝ) (n : ℕ) :
    listMinR (List.replicate (n + 1) x) = x := by
  rw [List.replicate_succ, listMinR, foldl_min_replicate]

theorem listMaxR_replicate (x : ℝ) (n : ℕ) :
    listMaxR (List.replicate (n + 1) x) = x := by
  rw [List.replicate_succ, listMaxR, foldl_max_replicate]

/-- C9: the CenternessScorer returns `sqrt(min/max)`, divided by the supplied
nonzero normalizer when one is given, and clamped to at most `1.0`; a uniform
positive signal scores exactly `1`, and the signal `[1, 4]` scores `1/2`. -/
theorem polar_centerness_spec :
    (∀ (l : List ℝ) (c : ℝ), c ≠ 0 →
        polar_centerness_target l (some c) =
          min (Real.sqrt (listMinR l / listMaxR l) / c) 1) ∧
    (∀ l : List ℝ,
        polar_centerness_target l none =
          min (Real.sqrt (listMinR l / listMaxR l)) 1) ∧
    (∀ (x : ℝ) (n : ℕ), 0 < x →
        polar_centerness_target (List.replicate (n + 1) x) none = 1) ∧
    polar_centerness_target [1, 4] none = 1 / 2 := by
  refine ⟨fun l c hc => by simp [polar_centerness_target, hc],
    fun l => rfl, fun x n hx => ?_, ?_⟩
  · rw [polar_centerness_target, listMinR_replicate, listMaxR_replicate,
      div_self hx.ne', Real.sqrt_one]
    norm_num
  · have h14 : Real.sqrt (1 / 4) = 1 / 2 := by
      rw [show (1 / 4 : ℝ) = (1 / 2) ^ 2 by norm_num, Real.sqrt_sq (by norm_num)]
    rw [polar_centerness_target]
    norm_num [listMinR, listMaxR, h14]

/-- C9 witness: a supplied normalizer `2` on `[1, 4]`, and the uniform signal
`[5, 5, 5]`. -/
theorem polar_centerness_spec_witness :
    polar_centerness_target [1, 4] (some 2) =
      min (Real.sqrt (listMinR [1, 4] / listMaxR [1, 4]) / 2) 1 ∧
    polar_centerness_target (List.replicate (2 + 1) 5) none = 1 :=
  ⟨polar_centerness_spec.1 [1, 4] 2 (by norm_num),
   polar_centerness_spec.2.2.1 5 2 (by norm_num)⟩

/-! ### C7: Decoder -/

theorem angleTable_four_zero : angleTable 4 0 = 0 := by
  simp [angleTable]

theorem angleTable_four_one : angleTable 4 1 = Real.pi / 2 := by
  rw [angleTable]
  norm_num
  try ring

theorem angleTable_four_two : angleTable 4 2 = Real.pi := by
  rw [angleTable]
  norm_num
  try ring

theorem angleTable_four_three : angleTable 4 3 = Real.pi + Real.pi / 2 := by
  rw [angleTable]
  norm_num
  try ring

theorem sin_pi_add_pi_div_two : Real.sin (Real.pi + Real.pi / 2) = -1 := by
  rw [Real.sin_add]
  norm_num [Real.sin_pi, Real.cos_pi, Real.sin_pi_div_two, Real.cos_pi_div_two]

theorem cos_pi_add_pi_div_two : Real.cos (Real.pi + Real.pi / 2) = 0 := by
  rw [Real.cos_add]
  norm_num [Real.sin_pi, Real.cos_pi, Real.sin_pi_div_two, Real.cos_pi_div_two]

/-- C7: the Decoder maps distance signal entry `i` to the vertex
`(d_i * sin(angle_i) + px, d_i * cos(angle_i) + py)` over the fixed angle table,
clamps each coordinate into `[0, dim - 1]` when an image shape is supplied, and
for `N = 4` a constant signal `c` around `(px, py)` yields the four vertices
`(px, py+c), (px+c, py), (px, py-c), (px-c, py)` at `0, 90, 180, 270` degrees. -/
theorem distance2mask_spec :
    (∀ (N : ℕ) (p : ℝ × ℝ) (d : ℕ → ℝ) (i : ℕ),
        distance2mask N p d none none i =
          (d i * Real.sin (angleTable N i) + p.1,
           d i * Real.cos (angleTable N i) + p.2)) ∧
    (∀ (N : ℕ) (p : ℝ × ℝ) (d : ℕ → ℝ) (i : ℕ) (H W : ℝ), 1 ≤ H → 1 ≤ W →
        0 ≤ (distance2mask N p d (some (H, W)) none i).1 ∧
        (distance2mask N p d (some (H, W)) none i).1 ≤ W - 1 ∧
        0 ≤ (distance2mask N p d (some (H, W)) none i).2 ∧
        (distance2mask N p d (some (H, W)) none i).2 ≤ H - 1) ∧
    (∀ (c px py : ℝ),
        distance2mask 4 (px, py) (fun _ => c) none none 0 = (px, py + c) ∧
        distance2mask 4 (px, py) (fun _ => c) none none 1 = (px + c, py) ∧
        distance2mask 4 (px, py) (fun _ => c) none none 2 = (px, py - c) ∧
        distance2mask 4 (px, py) (fun _ => c) none none 3 = (px - c, py)) := by
  refine ⟨fun N p d i => rfl, fun N p d i H W hH hW => ?_, fun c px py => ?_⟩
  · refine ⟨le_min (le_max_right _ 0) (by linarith), min_le_right _ _,
      le_min (le_max_right _ 0) (by linarith), min_le_right _ _⟩
  · refine ⟨?_, ?_, ?_, ?_⟩ <;>
      simp only [distance2mask, angleTable_four_zero, angleTable_four_one,
        angleTable_four_two, angleTable_four_three, Real.sin_zero, Real.cos_zero,
        Real.sin_pi_div_two, Real.cos_pi_div_two, Real.sin_pi, Real.cos_pi,
        sin_pi_add_pi_div_two, cos_pi_add_pi_div_two, Prod.mk.injEq] <;>
      constructor <;> ring

/-- C7 witness: the clamped decode of a constant signal `3` around `(10, 10)`
with image shape `(20, 20)` stays inside `[0, 19] x [0, 19]`. -/
theorem distance2mask_spec_witness :
    0 ≤ (distance2mask 4 (10, 10) (fun _ => 3) (some (20, 20)) none 1).1 ∧
    (distance2mask 4 (10, 10) (fun _ => 3) (some (20, 20)) none 1).1 ≤ 20 - 1 ∧
    0 ≤ (distance2mask 4 (10, 10) (fun _ => 3) (some (20, 20)) none 1).2 ∧
    (distance2mask 4 (10, 10) (fun _ => 3) (some (20, 20)) none 1).2 ≤ 20 - 1 :=
  distance2mask_spec.2.1 4 (10, 10) (fun _ => 3) 1 20 20 (by norm_num) (by norm_num)

/-! ### C3, C4: PolarSampler -/

theorem foldl_max_mem (x : ℚ) (xs : List ℚ) : xs.foldl max x ∈ x :: xs := by
  induction xs generalizing x with
  | nil => simp
  | cons y ys ih =>
    rw [List.foldl_cons]
    rcases List.mem_cons.mp (ih (max x y)) with h | h
    · rcases max_choice x y with hxy | hxy <;> rw [h, hxy] <;> simp
    · simp [List.mem_cons, h]

theorem le_foldl_max (x : ℚ) (xs : List ℚ) : ∀ y ∈ x :: xs, y ≤ xs.foldl max x := by
  induction xs generalizing x with
  | nil => intro y hy; rw [List.mem_singleton] at hy; simp [hy]
  | cons z zs ih =>
    intro y hy
    rw [List.foldl_cons]
    rcases List.mem_cons.mp hy with rfl | hy2
    · exact le_trans (le_max_left y z) (ih (max y z) _ (List.mem_cons_self _ _))
    · rcases List.mem_cons.mp hy2 with rfl | hy3
      · exact le_trans (le_max_right x y) (ih (max x y) _ (List.mem_cons_self _ _))
      · exact ih (max x z) y (List.mem_cons_of_mem _ hy3)

theorem listMax?_eq_some_iff {l : List ℚ} {v : ℚ} :
    listMax? l = some v ↔ v ∈ l ∧ ∀ y ∈ l, y ≤ v := by
  cases l with
  | nil => simp [listMax?]
  | cons x xs =>
    rw [listMax?, Option.some.injEq]
    constructor
    · rintro rfl
      exact ⟨foldl_max_mem x xs, le_foldl_max x xs⟩
    · rintro ⟨hmem, hub⟩
      exact le_antisymm (hub _ (foldl_max_mem x xs)) (le_foldl_max x xs v hmem)

theorem listMax?_perm {l₁ l₂ : List ℚ} (h : l₁.Perm l₂) :
    listMax? l₁ = listMax? l₂ := by
  cases h2 : listMax? l₂ with
  | none =>
    cases l₂ with
    | nil => rw [h.eq_nil]; rfl
    | cons x xs => rw [listMax?] at h2; exact absurd h2 (by simp)
  | some v =>
    rw [listMax?_eq_some_iff] at h2 ⊢
    exact ⟨h.mem_iff.mpr h2.1, fun y hy => h2.2 y (h.mem_iff.mp hy)⟩

theorem maxDistAt_perm {p₁ p₂ : List (ℤ × ℚ)} (h : p₁.Perm p₂) (a : ℤ) :
    maxDistAt p₁ a = maxDistAt p₂ a :=
  listMax?_perm ((h.filter _).map Prod.snd)

theorem maxDistAt_isSome {pairs : List (ℤ × ℚ)} {a : ℤ}
    (ha : a ∈ pairs.map Prod.fst) : ∃ m, maxDistAt pairs a = some m := by
  rcases List.mem_map.mp ha with ⟨pr, hpr, rfl⟩
  have hmem : pr.2 ∈ (pairs.filter (fun q => q.1 = pr.1)).map Prod.snd :=
    List.mem_map.mpr ⟨pr, List.mem_filter.mpr ⟨hpr, by simp⟩, rfl⟩
  cases hlist : (pairs.filter (fun q => q.1 = pr.1)).map Prod.snd with
  | nil => rw [hlist] at hmem; exact absurd hmem (List.not_mem_nil _)
  | cons x xs => exact ⟨_, by rw [maxDistAt, hlist, listMax?]⟩

theorem newCoordinate_perm {p₁ p₂ : List (ℤ × ℚ)} (h : p₁.Perm p₂) (i : ℤ) :
    newCoordinate p₁ i = newCoordinate p₂ i := by
  have e1 : ∀ a : ℤ, (a ∈ p₁.map Prod.fst) = (a ∈ p₂.map Prod.fst) :=
    fun a => propext (h.map Prod.fst).mem_iff
  simp only [newCoordinate, e1, maxDistAt_perm h]

theorem newCoordinate_spec (pairs : List (ℤ × ℚ)) (i : ℤ) :
    (match newCoordinate pairs i with
      | some d => d
      | none => polarEps) = specBinValue pairs i := by
  rw [specBinValue, priorityAngles, newCoordinate]
  by_cases h1 : i ∈ pairs.map Prod.fst
  · rcases maxDistAt_isSome h1 with ⟨m, hm⟩
    simp [h1, hm, List.find?]
  · by_cases h2 : i + 1 ∈ pairs.map Prod.fst
    · rcases maxDistAt_isSome h2 with ⟨m, hm⟩
      simp [h1, h2, hm, List.find?]
    · by_cases h3 : i - 1 ∈ pairs.map Prod.fst
      · rcases maxDistAt_isSome h3 with ⟨m, hm⟩
        simp [h1, h2, h3, hm, List.find?]
      · by_cases h4 : i + 2 ∈ pairs.map Prod.fst
        · rcases maxDistAt_isSome h4 with ⟨m, hm⟩
          simp [h1, h2, h3, h4, hm, List.find?]
        · by_cases h5 : i - 2 ∈ pairs.map Prod.fst
          · rcases maxDistAt_isSome h5 with ⟨m, hm⟩
            simp [h1, h2, h3, h4, h5, hm, List.find?]
          · by_cases h6 : i + 3 ∈ pairs.map Prod.fst
            · rcases maxDistAt_isSome h6 with ⟨m, hm⟩
              simp [h1, h2, h3, h4, h5, h6, hm, List.find?]
            · by_cases h7 : i - 3 ∈ pairs.map Prod.fst
              · rcases maxDistAt_isSome h7 with ⟨m, hm⟩
                simp [h1, h2, h3, h4, h5, h6, h7, hm, List.find?]
              · simp [h1, h2, h3, h4, h5, h6, h7, List.find?]

/-- C3: every target bin `k * interval` of the PolarSampler holds the maximum
distance among the contour points whose integer angle equals the first matching
angle in the priority order exact, `+1`, `-1`, `+2`, `-2`, `+3`, `-3`, and the
epsilon `1e-6` when no angle of that list matches any contour point. -/
theorem get_polar_coordinates_priority (angles : List ℤ) (dists : List ℚ)
    (n k : ℕ) (_hdiv : n * (360 / n) = 360) (hk : k < n) :
    (get_polar_coordinates angles dists n)[k]? =
      some (specBinValue (angles.zip dists) ((k * (360 / n) : ℕ) : ℤ)) := by
  simp only [get_polar_coordinates]
  rw [List.getElem?_map, List.getElem?_range hk, Option.map_some']
  rw [newCoordinate_perm
    (show (sortByAngle (angles.zip dists)).Perm (angles.zip dists) from
      List.perm_insertionSort _ _) _, newCoordinate_spec]

/-- C3 witness: with contour angles `[0, 91]` and distances `[5, 7]`, bin `1`
(target angle `90`) falls back to the `+1` neighbour `91`. -/
theorem get_polar_coordinates_priority_witness :
    (get_polar_coordinates [0, 91] [5, 7] 4)[1]? =
      some (specBinValue ([0, 91].zip [5, 7]) ((1 * (360 / 4) : ℕ) : ℤ)) :=
  get_polar_coordinates_priority [0, 91] [5, 7] 4 1 (by norm_num) (by norm_num)

/-- C4 (amended): provided every contour distance is strictly positive (the
center is not itself a contour point), every entry of the produced
AngularSignal is strictly positive: matched bins hold a maximum of positive
distances and unmatched bins hold the positive epsilon `1e-6`. -/
theorem polar_distances_pos (angles : List ℤ) (dists : List ℚ) (n : ℕ)
    (_hdiv : n * (360 / n) = 360) (hpos : ∀ d ∈ dists, 0 < d) :
    ∀ q ∈ get_polar_coordinates angles dists n, 0 < q := by
  intro q hq
  simp only [get_polar_coordinates] at hq
  rcases List.mem_map.mp hq with ⟨k, hk, hval⟩
  revert hval
  cases hnc : newCoordinate (sortByAngle (angles.zip dists)) ((k * (360 / n) : ℕ) : ℤ) with
  | none =>
    intro hval
    rw [← hval]
    norm_num [polarEps]
  | some d =>
    intro hval
    rw [← hval]
    have hcases : ∃ a, maxDistAt (sortByAngle (angles.zip dists)) a = some d := by
      revert hnc
      rw [newCoordinate]
      split_ifs <;> intro hnc
      · exact ⟨_, hnc⟩
      · exact ⟨_, hnc⟩
      · exact ⟨_, hnc⟩
      · exact ⟨_, hnc⟩
      · exact ⟨_, hnc⟩
      · exact ⟨_, hnc⟩
      · exact ⟨_, hnc⟩
      · exact absurd hnc (by simp)
    rcases hcases with ⟨a, ha⟩
    have hmem : d ∈ ((sortByAngle (angles.zip dists)).filter
        (fun q => q.1 = a)).map Prod.snd := (listMax?_eq_some_iff.mp ha).1
    rcases List.mem_map.mp hmem with ⟨pr, hpr, rfl⟩
    have hz : pr ∈ angles.zip dists :=
      (List.perm_insertionSort _ _).subset (List.mem_filter.mp hpr).1
    have : pr.2 ∈ dists := (List.of_mem_zip (show (pr.1, pr.2) ∈ _ by simpa using hz)).2
    exact hpos _ this

/-- C4 witness: angles `[0, 91]`, distances `[5, 7]`: the first output bin holds
the (positive) distance `5`. -/
theorem polar_distances_pos_witness :
    0 < (get_polar_coordinates [0, 91] [5, 7] 4).getD 0 0 :=
  polar_distances_pos [0, 91] [5, 7] 4 (by norm_num) (by norm_num) _ (by decide)

/-- C4 counterexample: a contour consisting of a single point that coincides with
the sampling center (angle `0`, distance `0`) puts the value `0` - not a
positive epsilon - into bin `0` of the AngularSignal. -/
theorem polar_distances_zero_entry :
    (get_polar_coordinates [0] [0] 4)[0]? = some 0 := by
  decide

/-! ### C1, C5, C6: TargetAssigner -/

theorem foldl_min_mem (x : ℚ) (xs : List ℚ) : xs.foldl min x ∈ x :: xs := by
  induction xs generalizing x with
  | nil => simp
  | cons y ys ih =>
    rw [List.foldl_cons]
    rcases List.mem_cons.mp (ih (min x y)) with h | h
    · rcases min_choice x y with hxy | hxy <;> rw [h, hxy] <;> simp
    · simp [List.mem_cons, h]

theorem foldl_min_le (x : ℚ) (xs : List ℚ) : ∀ y ∈ x :: xs, xs.foldl min x ≤ y := by
  induction xs generalizing x with
  | nil => intro y hy; rw [List.mem_singleton] at hy; simp [hy]
  | cons z zs ih =>
    intro y hy
    rw [List.foldl_cons]
    rcases List.mem_cons.mp hy with rfl | hy2
    · exact le_trans (ih (min y z) _ (List.mem_cons_self _ _)) (min_le_left y z)
    · rcases List.mem_cons.mp hy2 with rfl | hy3
      · exact le_trans (ih (min x y) _ (List.mem_cons_self _ _)) (min_le_right x y)
      · exact ih (min x z) y (List.mem_cons_of_mem _ hy3)

theorem listMinQ_mem {l : List ℚ} (h : l ≠ []) : listMinQ l ∈ l := by
  cases l with
  | nil => exact absurd rfl h
  | cons x xs => exact foldl_min_mem x xs

theorem listMinQ_le_of_mem {l : List ℚ} {y : ℚ} (h : y ∈ l) : listMinQ l ≤ y := by
  cases l with
  | nil => exact absurd h (List.not_mem_nil y)
  | cons x xs => exact foldl_min_le x xs y h

theorem listMinQ_eq_of_forall {l : List ℚ} (h : ∀ y ∈ l, y = INF) :
    listMinQ l = INF := by
  cases l with
  | nil => rfl
  | cons x xs => exact h _ (foldl_min_mem x xs)

theorem effectiveAreas_getElem? (gtBoxes : List Box) (p rr : ℚ × ℚ) (i : ℕ)
    (hi : i < gtBoxes.length) :
    (effectiveAreas gtBoxes p rr)[i]? =
      some (if passesBoth p rr gtBoxes[i] then boxArea gtBoxes[i] else INF) := by
  simp [effectiveAreas, List.getElem?_map, List.getElem?_eq_getElem hi]

theorem effectiveAreas_getElem (gtBoxes : List Box) (p rr : ℚ × ℚ) (i : ℕ)
    (hi : i < gtBoxes.length) (hi2 : i < (effectiveAreas gtBoxes p rr).length) :
    (effectiveAreas gtBoxes p rr)[i] =
      if passesBoth p rr gtBoxes[i] then boxArea gtBoxes[i] else INF := by
  have h1 := List.getElem?_eq_getElem hi2
  rw [effectiveAreas_getElem? gtBoxes p rr i hi] at h1
  exact (Option.some.inj h1).symm

/-- C1: with an empty ground-truth instance list `polar_target_single` returns
an all-background label row and an all-zero bbox-target row, but no mask-target
and no centerness-target tensor at all (the early return at lines 548-550 hands
back a 2-tuple instead of the regular 4-tuple, so the four-way unpacking in
`polar_target` cannot succeed). -/
theorem polar_target_single_zero_gt (contour_points : ℕ)
    (getPolarDists : ℚ → ℚ → ℕ → List ℚ) (nc : Bool) (mc : ℕ → ℝ)
    (points rrs : List (ℚ × ℚ)) :
    polar_target_single contour_points getPolarDists nc mc [] [] points rrs =
      (List.replicate points.length 0, List.replicate points.length (0, 0, 0, 0),
        none, none) := by
  simp [polar_target_single]

/-- C5 (amended): provided every candidate box area (with the `+1` offsets) is
strictly below the `INF = 1e8` sentinel, a point with no instance passing both
the inclusion and the regression-range test gets the background label `0`, and
a point with a passing instance gets the label of the passing instance of
minimal box area, the earliest such instance at area ties. -/
theorem label_min_area_first (gtBoxes : List Box) (gtLabels : List ℤ)
    (p rr : ℚ × ℚ) (harea : ∀ b ∈ gtBoxes, boxArea b < INF) :
    ((∀ (i : ℕ) (hi : i < gtBoxes.length), passesBoth p rr gtBoxes[i] = false) →
        labelAt gtBoxes gtLabels p rr = 0) ∧
    (∀ (w : ℕ) (hw : w < gtBoxes.length),
        passesBoth p rr gtBoxes[w] = true →
        (∀ (k : ℕ) (hk : k < gtBoxes.length), passesBoth p rr gtBoxes[k] = true →
          boxArea gtBoxes[w] ≤ boxArea gtBoxes[k]) →
        (∀ (k : ℕ) (hk : k < gtBoxes.length), passesBoth p rr gtBoxes[k] = true →
          boxArea gtBoxes[k] = boxArea gtBoxes[w] → w ≤ k) →
        labelAt gtBoxes gtLabels p rr = gtLabels.getD w 0) := by
  have hefflen : (effectiveAreas gtBoxes p rr).length = gtBoxes.length := by
    simp [effectiveAreas]
  constructor
  · intro hnone
    have hall : ∀ y ∈ effectiveAreas gtBoxes p rr, y = INF := by
      intro y hy
      rcases List.mem_iff_getElem.mp hy with ⟨i, hilen, hvy⟩
      have hi : i < gtBoxes.length := hefflen ▸ hilen
      rw [← hvy, effectiveAreas_getElem gtBoxes p rr i hi hilen, hnone i hi, if_neg]
      simp
    simp only [labelAt]
    rw [if_pos (listMinQ_eq_of_forall hall)]
  · intro w hw hpw hmin hties
    have hwlen : w < (effectiveAreas gtBoxes p rr).length := hefflen ▸ hw
    have heffw : (effectiveAreas gtBoxes p rr)[w] = boxArea gtBoxes[w] := by
      rw [effectiveAreas_getElem gtBoxes p rr w hw hwlen, if_pos hpw]
    have hAmem : boxArea gtBoxes[w] ∈ effectiveAreas gtBoxes p rr := by
      rw [← heffw]; exact List.getElem_mem _
    have hminle : listMinQ (effectiveAreas gtBoxes p rr) ≤ boxArea gtBoxes[w] :=
      listMinQ_le_of_mem hAmem
    have hAlt : boxArea gtBoxes[w] < INF := harea _ (List.getElem_mem hw)
    have hminA : listMinQ (effectiveAreas gtBoxes p rr) = boxArea gtBoxes[w] := by
      have hne : effectiveAreas gtBoxes p rr ≠ [] := by
        intro h0
        rw [h0] at hefflen
        simp at hefflen
        omega
      rcases List.mem_iff_getElem.mp (listMinQ_mem hne) with ⟨i, hilen, hvi⟩
      have hi : i < gtBoxes.length := hefflen ▸ hilen
      rw [effectiveAreas_getElem gtBoxes p rr i hi hilen] at hvi
      by_cases hpi : passesBoth p rr gtBoxes[i] = true
      · rw [if_pos hpi] at hvi
        exact le_antisymm hminle (hvi ▸ hmin i hi hpi)
      · rw [if_neg hpi] at hvi
        exact absurd (hvi ▸ hminle) (not_le.mpr hAlt)
    have hfind : firstMinIdx (effectiveAreas gtBoxes p rr) = w := by
      rw [firstMinIdx, List.findIdx_eq hwlen]
      constructor
      · rw [heffw, hminA]
        simp
      · intro j hj
        have hjlen : j < gtBoxes.length := lt_trans hj hw
        have hjlen2 : j < (effectiveAreas gtBoxes p rr).length := hefflen ▸ hjlen
        rw [decide_eq_false_iff_not]
        intro hbad
        rw [effectiveAreas_getElem gtBoxes p rr j hjlen hjlen2, hminA] at hbad
        by_cases hpj : passesBoth p rr gtBoxes[j] = true
        · rw [if_pos hpj] at hbad
          exact absurd (hties j hjlen hpj hbad) (Nat.not_le.mpr hj)
        · rw [if_neg hpj] at hbad
          exact absurd (hbad ▸ hAlt) (lt_irrefl INF)
    have hminne : listMinQ (effectiveAreas gtBoxes p rr) ≠ INF := by
      rw [hminA]; exact hAlt.ne
    simp only [labelAt]
    rw [if_neg hminne, hfind]

/-- C5 witness: two identical passing boxes (an exact area tie): the earlier
instance's label `5` wins. -/
theorem label_min_area_first_witness :
    labelAt [⟨0, 0, 9, 9⟩, ⟨0, 0, 9, 9⟩] [5, 9] (5, 5) (0, 100) = 5 := by
  have h := (label_min_area_first [⟨0, 0, 9, 9⟩, ⟨0, 0, 9, 9⟩] [5, 9] (5, 5) (0, 100)
    (by norm_num [List.forall_mem_cons, boxArea, INF])).2 0 (by norm_num)
    (by norm_num [passesBoth, insideGtBbox, insideRegressRange, ltrb, min4, max4])
    (fun k hk _ => by
      simp only [List.length_cons, List.length_nil] at hk
      interval_cases k <;> norm_num [boxArea])
    (fun k _ _ _ => Nat.zero_le k)
  simpa using h

/-- C5 counterexample: two instances both pass the inclusion and the range test
at point `(5, 5)`; the first has the strictly smaller area `1e8`, but because
that area equals the `INF` sentinel the code assigns the background label `0`
instead of the claimed label `7` of the minimum-area instance. -/
theorem min_area_inf_alias :
    passesBoth (5, 5) (0, 100000000) ⟨0, 0, 9999, 9999⟩ = true ∧
    passesBoth (5, 5) (0, 100000000) ⟨0, 0, 9999, 10000⟩ = true ∧
    boxArea (⟨0, 0, 9999, 9999⟩ : Box) < boxArea (⟨0, 0, 9999, 10000⟩ : Box) ∧
    labelAt [⟨0, 0, 9999, 9999⟩, ⟨0, 0, 9999, 10000⟩] [7, 9] (5, 5)
      (0, 100000000) = 0 := by
  refine ⟨?_, ?_, ?_, ?_⟩ <;>
    norm_num [passesBoth, insideGtBbox, insideRegressRange, ltrb, min4, max4,
      boxArea, labelAt, effectiveAreas, listMinQ, firstMinIdx, INF, min_def]

/-- C6 (amended): with center sampling disabled, a single candidate instance
with a nonzero class label and box area strictly below the `INF = 1e8` sentinel
marks a point positive with its label iff all four point-to-edge distances are
strictly positive and the maximum distance lies in the closed regression range;
a point failing the inclusion test is background regardless of the range test. -/
theorem single_instance_label_iff (b : Box) (l : ℤ) (p rr : ℚ × ℚ)
    (hl : l ≠ 0) (harea : boxArea b < INF) :
    (labelAt [b] [l] p rr = l ↔
      (0 < p.1 - b.x0 ∧ 0 < p.2 - b.y0 ∧ 0 < b.x1 - p.1 ∧ 0 < b.y1 - p.2) ∧
      (rr.1 ≤ max4 (ltrb p b) ∧ max4 (ltrb p b) ≤ rr.2)) ∧
    (¬(0 < p.1 - b.x0 ∧ 0 < p.2 - b.y0 ∧ 0 < b.x1 - p.1 ∧ 0 < b.y1 - p.2) →
      labelAt [b] [l] p rr = 0) := by
  have hminiff : (0 < min4 (ltrb p b)) ↔
      (0 < p.1 - b.x0 ∧ 0 < p.2 - b.y0 ∧ 0 < b.x1 - p.1 ∧ 0 < b.y1 - p.2) := by
    simp [min4, ltrb, lt_min_iff, and_assoc]
  have hpassiff : passesBoth p rr b = true ↔
      ((0 < p.1 - b.x0 ∧ 0 < p.2 - b.y0 ∧ 0 < b.x1 - p.1 ∧ 0 < b.y1 - p.2) ∧
        (rr.1 ≤ max4 (ltrb p b) ∧ max4 (ltrb p b) ≤ rr.2)) := by
    rw [passesBoth, Bool.and_eq_true, insideGtBbox, insideRegressRange]
    simp [hminiff]
  by_cases hpass : passesBoth p rr b = true
  · have hlab : labelAt [b] [l] p rr = l := by
      have heff : effectiveAreas [b] p rr = [boxArea b] := by
        simp [effectiveAreas, hpass]
      simp only [labelAt, heff]
      have hmin : listMinQ [boxArea b] = boxArea b := rfl
      rw [if_neg (by rw [hmin]; exact harea.ne)]
      have hidx : firstMinIdx [boxArea b] = 0 := by
        simp [firstMinIdx, List.findIdx_cons, hmin]
      simp [hidx]
    refine ⟨?_, ?_⟩
    · rw [hlab]
      exact iff_of_true rfl (hpassiff.mp hpass)
    · intro hincl
      exact absurd ((hpassiff.mp hpass).1) hincl
  · have hlab : labelAt [b] [l] p rr = 0 := by
      have heff : effectiveAreas [b] p rr = [INF] := by
        simp [effectiveAreas, hpass]
      simp [labelAt, heff, listMinQ]
    refine ⟨?_, fun _ => hlab⟩
    rw [hlab]
    refine iff_of_false (fun h0 => hl h0.symm) (fun hrhs => hpass (hpassiff.mpr hrhs))

/-- C6 witness: the box `(0, 0, 10, 10)` with label `3` at the passing point
`(4, 4)` with range `(0, 20)` and at the failing point `(12, 4)`. -/
theorem single_instance_label_iff_witness :
    (labelAt [⟨0, 0, 10, 10⟩] [3] (4, 4) (0, 20) = 3 ↔
      (0 < (4 : ℚ) - 0 ∧ 0 < (4 : ℚ) - 0 ∧ 0 < (10 : ℚ) - 4 ∧ 0 < (10 : ℚ) - 4) ∧
      ((0 : ℚ) ≤ max4 (ltrb (4, 4) ⟨0, 0, 10, 10⟩) ∧
        max4 (ltrb (4, 4) ⟨0, 0, 10, 10⟩) ≤ 20)) ∧
    (¬(0 < (4 : ℚ) - 0 ∧ 0 < (4 : ℚ) - 0 ∧ 0 < (10 : ℚ) - 4 ∧ 0 < (10 : ℚ) - 4) →
      labelAt [⟨0, 0, 10, 10⟩] [3] (4, 4) (0, 20) = 0) :=
  single_instance_label_iff ⟨0, 0, 10, 10⟩ 3 (4, 4) (0, 20) (by decide)
    (by norm_num [boxArea, INF])

/-- C6 counterexample: a single instance whose box `(0, 0, 9999, 9999)` fully
contains the point `(5, 5)` (all four edge distances positive) and whose max
edge distance `9994` lies inside the range `(0, 1e8)`, yet the assigned label
is the background `0` rather than the instance's label `7`, because the box
area is exactly the `INF = 1e8` sentinel. -/
theorem single_instance_inf_alias :
    (0 < (5 : ℚ) - 0 ∧ 0 < (5 : ℚ) - 0 ∧ 0 < (9999 : ℚ) - 5 ∧ 0 < (9999 : ℚ) - 5) ∧
    ((0 : ℚ) ≤ max4 (ltrb (5, 5) ⟨0, 0, 9999, 9999⟩) ∧
      max4 (ltrb (5, 5) ⟨0, 0, 9999, 9999⟩) ≤ 100000000) ∧
    labelAt [⟨0, 0, 9999, 9999⟩] [7] (5, 5) (0, 100000000) = 0 := by
  refine ⟨by norm_num, ?_, ?_⟩ <;>
    norm_num [labelAt, effectiveAreas, passesBoth, insideGtBbox,
      insideRegressRange, ltrb, min4, max4, boxArea, listMinQ, firstMinIdx,
      INF, max_def, min_def]

/-! ### C2: FourierCodec round trip -/

theorem sqrt_four : Real.sqrt 4 = 2 := by
  rw [show (4 : ℝ) = 2 ^ 2 by norm_num, Real.sqrt_sq (by norm_num)]

theorem cexpBin_zero (N : ℕ) : cexpBin N 0 = 1 := by
  rw [cexpBin]
  norm_num [Complex.exp_zero]

theorem cexpBin_add (N : ℕ) (a b : ℤ) :
    cexpBin N (a + b) = cexpBin N a * cexpBin N b := by
  rw [cexpBin, cexpBin, cexpBin, ← Complex.exp_add]
  congr 1
  push_cast
  ring

theorem cexpBin_mul_nat (N : ℕ) (m : ℤ) (k : ℕ) :
    cexpBin N (m * k) = cexpBin N m ^ k := by
  rw [cexpBin, cexpBin, ← Complex.exp_nat_mul]
  congr 1
  push_cast
  ring

theorem cexpBin_pow_self (N : ℕ) (hN0 : N ≠ 0) (m : ℤ) : cexpBin N m ^ N = 1 := by
  have hNC : ((N : ℕ) : ℂ) ≠ 0 := Nat.cast_ne_zero.mpr hN0
  rw [← cexpBin_mul_nat, cexpBin,
    show (2 * (Real.pi : ℂ) * Complex.I * ((m * (N : ℕ) : ℤ) : ℂ) / ((N : ℕ) : ℂ)) =
      (m : ℂ) * (2 * (Real.pi : ℂ) * Complex.I) by
    push_cast
    field_simp
    ring]
  exact Complex.exp_int_mul_two_pi_mul_I m

theorem cexpBin_ne_one (N : ℕ) (hN : 0 < N) (m : ℤ) (hm : m ≠ 0)
    (hlo : -(N : ℤ) < m) (hhi : m < (N : ℤ)) : cexpBin N m ≠ 1 := by
  intro heq
  rw [cexpBin, Complex.exp_eq_one_iff] at heq
  obtain ⟨n, hn⟩ := heq
  have hNC : ((N : ℕ) : ℂ) ≠ 0 := Nat.cast_ne_zero.mpr hN.ne'
  have h2pi : (2 * (Real.pi : ℂ) * Complex.I) ≠ 0 := by
    refine mul_ne_zero (mul_ne_zero two_ne_zero ?_) Complex.I_ne_zero
    exact Complex.ofReal_ne_zero.mpr Real.pi_ne_zero
  have hmn : (m : ℂ) = (n : ℂ) * ((N : ℕ) : ℂ) := by
    have h1 : (2 * (Real.pi : ℂ) * Complex.I) * (m : ℂ) =
        (2 * (Real.pi : ℂ) * Complex.I) * ((n : ℂ) * ((N : ℕ) : ℂ)) := by
      field_simp at hn
      linear_combination hn
    exact mul_left_cancel₀ h2pi h1
  have hmZ : m = n * (N : ℤ) := by exact_mod_cast hmn
  have hNnn : (0 : ℤ) ≤ (N : ℤ) := by positivity
  rcases lt_trichotomy n 0 with hn0 | hn0 | hn0
  · have hle : m ≤ -(N : ℤ) := by
      calc m = n * (N : ℤ) := hmZ
        _ ≤ (-1) * (N : ℤ) := mul_le_mul_of_nonneg_right (by omega) hNnn
        _ = -(N : ℤ) := by ring
    omega
  · subst hn0
    simp at hmZ
    exact hm hmZ
  · have hge : (N : ℤ) ≤ m := by
      calc (N : ℤ) = 1 * (N : ℤ) := (one_mul _).symm
        _ ≤ n * (N : ℤ) := mul_le_mul_of_nonneg_right (by omega) hNnn
        _ = m := hmZ.symm
    omega

theorem cexpBin_geom_sum_eq_zero (N : ℕ) (hN : 0 < N) (m : ℤ) (hm : m ≠ 0)
    (hlo : -(N : ℤ) < m) (hhi : m < (N : ℤ)) :
    ∑ k ∈ Finset.range N, cexpBin N (m * k) = 0 := by
  have homega : cexpBin N m ≠ 1 := cexpBin_ne_one N hN m hm hlo hhi
  have h1 : ∀ k ∈ Finset.range N, cexpBin N (m * k) = cexpBin N m ^ k :=
    fun k _ => cexpBin_mul_nat N m k
  rw [Finset.sum_congr rfl h1, geom_sum_eq homega, cexpBin_pow_self N hN.ne' m]
  simp

/-- C2 counterexample: for `N = 4` and `K = N/2 + 1 = 3` retained bins of the
two-sided (`onesided=False`) spectrum, the round trip maps the signal
`(1, 0, 0, 0)` to `3/4` at sample `0` - the forward-truncate-pad-inverse chain
is not the identity at `K = N/2 + 1` (zeroing the bins `k > N/2` of a two-sided
spectrum halves the conjugate-pair contributions instead of restoring them). -/
theorem fourier_roundtrip_half_bins_not_exact :
    fourierRoundTrip 4 (4 / 2 + 1) (fun j => if j = 0 then (1 : ℝ) else 0) 0 = 3 / 4 ∧
    (3 / 4 : ℝ) ≠ 1 := by
  have hc0 : cexpBin 4 0 = 1 := by
    rw [cexpBin]
    norm_num [Complex.exp_zero]
  have hinv : ((Real.sqrt ((4 : ℕ) : ℝ) : ℝ) : ℂ)⁻¹ = ((2⁻¹ : ℝ) : ℂ) := by
    rw [show (((4 : ℕ) : ℝ)) = (4 : ℝ) by norm_num, sqrt_four, Complex.ofReal_inv]
  constructor
  · rw [fourierRoundTrip, irfftNorm]
    simp only [rfftNorm, truncCoe, Finset.sum_range_succ, Finset.sum_range_zero, hinv]
    norm_num
    simp only [hc0]
    simp only [Complex.add_re, Complex.add_im, Complex.mul_re, Complex.mul_im,
      Complex.ofReal_re, Complex.ofReal_im, Complex.one_re, Complex.one_im,
      Complex.zero_re, Complex.zero_im]
    norm_num
  · norm_num

/-- C2 (amended): retaining all `K = N` bins of the two-sided spectrum (rather
than the claimed `K = N/2 + 1`), the forward-then-inverse chain reconstructs
every real length-`N` signal exactly, for every positive signal length `N`. -/
theorem fourier_roundtrip_full_bins_exact (N : ℕ) (hN : 0 < N) (s : ℕ → ℝ)
    (j : ℕ) (hj : j < N) : fourierRoundTrip N N s j = s j := by
  have hNR : (0 : ℝ) < (N : ℝ) := by exact_mod_cast hN
  have hNC : ((N : ℕ) : ℂ) ≠ 0 := Nat.cast_ne_zero.mpr hN.ne'
  have hsum : ∀ j' ∈ Finset.range N,
      (∑ k ∈ Finset.range N, cexpBin N (((j : ℤ) - (j' : ℤ)) * k)) =
        if j' = j then ((N : ℕ) : ℂ) else 0 := by
    intro j' hj'
    by_cases he : j' = j
    · subst he
      rw [if_pos rfl]
      have hone : ∀ k ∈ Finset.range N, cexpBin N (((j' : ℤ) - (j' : ℤ)) * k) = 1 := by
        intro k _
        rw [sub_self, zero_mul, cexpBin_zero]
      rw [Finset.sum_congr rfl hone]
      simp
    · rw [if_neg he]
      have hj'N : j' < N := Finset.mem_range.mp hj'
      refine cexpBin_geom_sum_eq_zero N hN _ ?_ ?_ ?_
      · have : (j' : ℤ) ≠ (j : ℤ) := by exact_mod_cast he
        omega
      · have : (j' : ℤ) < (N : ℤ) := by exact_mod_cast hj'N
        omega
      · have : (j : ℤ) < (N : ℤ) := by exact_mod_cast hj
        omega
  have key : ∑ k ∈ Finset.range N, truncCoe N (rfftNorm N s) k * cexpBin N ((j : ℤ) * k) =
      ((Real.sqrt ((N : ℕ) : ℝ) : ℝ) : ℂ)⁻¹ * ((s j : ℂ) * ((N : ℕ) : ℂ)) := by
    calc ∑ k ∈ Finset.range N, truncCoe N (rfftNorm N s) k * cexpBin N ((j : ℤ) * k)
        = ∑ k ∈ Finset.range N, ((Real.sqrt ((N : ℕ) : ℝ) : ℝ) : ℂ)⁻¹ *
            ∑ j' ∈ Finset.range N, (s j' : ℂ) * cexpBin N (((j : ℤ) - (j' : ℤ)) * k) := by
          refine Finset.sum_congr rfl fun k hk => ?_
          rw [truncCoe, if_pos (Finset.mem_range.mp hk), rfftNorm, mul_assoc]
          congr 1
          rw [Finset.sum_mul]
          refine Finset.sum_congr rfl fun j' _ => ?_
          rw [mul_assoc, ← cexpBin_add,
            show -((j' : ℤ) * k) + (j : ℤ) * k = ((j : ℤ) - (j' : ℤ)) * k by ring]
      _ = ((Real.sqrt ((N : ℕ) : ℝ) : ℝ) : ℂ)⁻¹ * ∑ j' ∈ Finset.range N,
            ∑ k ∈ Finset.range N, (s j' : ℂ) * cexpBin N (((j : ℤ) - (j' : ℤ)) * k) := by
          rw [← Finset.mul_sum, Finset.sum_comm]
      _ = ((Real.sqrt ((N : ℕ) : ℝ) : ℝ) : ℂ)⁻¹ * ∑ j' ∈ Finset.range N,
            (s j' : ℂ) * (if j' = j then ((N : ℕ) : ℂ) else 0) := by
          congr 1
          refine Finset.sum_congr rfl fun j' hj' => ?_
          rw [← Finset.mul_sum, hsum j' hj']
      _ = ((Real.sqrt ((N : ℕ) : ℝ) : ℝ) : ℂ)⁻¹ * ((s j : ℂ) * ((N : ℕ) : ℂ)) := by
          congr 1
          simp only [mul_ite, mul_zero]
          rw [Finset.sum_ite_eq' (Finset.range N) j (fun j' => (s j' : ℂ) * ((N : ℕ) : ℂ)),
            if_pos (Finset.mem_range.mpr hj)]
  rw [fourierRoundTrip, irfftNorm, key]
  have hsq : ((Real.sqrt ((N : ℕ) : ℝ) : ℝ) : ℂ) * ((Real.sqrt ((N : ℕ) : ℝ) : ℝ) : ℂ) =
      ((N : ℕ) : ℂ) := by
    rw [← Complex.ofReal_mul, Real.mul_self_sqrt hNR.le]
    norm_cast
  have hval : ((Real.sqrt ((N : ℕ) : ℝ) : ℝ) : ℂ)⁻¹ *
      (((Real.sqrt ((N : ℕ) : ℝ) : ℝ) : ℂ)⁻¹ * ((s j : ℂ) * ((N : ℕ) : ℂ))) =
        ((s j : ℝ) : ℂ) := by
    rw [← mul_assoc, ← mul_inv, hsq]
    field_simp
  rw [hval, Complex.ofReal_re]

/-- C2 amended-claim witness: the constant signal `5` of length `6` at sample `2`. -/
theorem fourier_roundtrip_full_bins_exact_witness :
    fourierRoundTrip 6 6 (fun _ => 5) 2 = (fun _ : ℕ => (5 : ℝ)) 2 :=
  fourier_roundtrip_full_bins_exact 6 (by norm_num) (fun _ => 5) 2 (by norm_num)

end FourierNet
